import Mathlib

/-!
Verification of the subtitle-to-flashcard enrichment pipeline
(`scripts/parseSubs.ts` and `scripts/enrichCards.ts`).

Strings are modelled as `List Char`; JavaScript numbers that arise in the
hint files are modelled exactly (integers as `Int`, finite decimal literals
as integer part plus fractional digit string).  All definitions are direct
transcriptions of the source functions; the few JS library behaviours they
rely on (`String.prototype.trim`, `parseInt(_, 10)`, `split`, regexes with
fixed-shape patterns, `Map` insertion-order semantics) are modelled
explicitly below.
-/

namespace Subs

/-- Characters treated as whitespace by JS `trim` (the WhiteSpace and
LineTerminator productions). -/
def isJsWs (c : Char) : Bool :=
  let n := c.toNat
  n = 32 || n = 9 || n = 10 || n = 13 || n = 11 || n = 12 ||
  n = 160 || n = 5760 || (8192 ≤ n && n ≤ 8202) || n = 8232 || n = 8233 ||
  n = 8239 || n = 8287 || n = 12288 || n = 65279

/-- JS `String.prototype.trim`: drop whitespace from both ends. -/
def trimJS (l : List Char) : List Char :=
  (l.dropWhile isJsWs).rdropWhile isJsWs

def isDigitC (c : Char) : Bool :=
  48 ≤ c.toNat && c.toNat ≤ 57

def digitVal (c : Char) : Nat := c.toNat - 48

def digitChar (n : Nat) : Char := Char.ofNat (48 + n)

def digitsToNat (l : List Char) : Nat :=
  l.foldl (fun a c => a * 10 + digitVal c) 0

/-- Decimal digit string of a natural number, most significant first; the
first argument is structural fuel (any value above `n` is enough). -/
def natDigitsAux : Nat → Nat → List Char
  | 0, _ => []
  | fuel + 1, n =>
    if n < 10 then [digitChar n]
    else natDigitsAux fuel (n / 10) ++ [digitChar (n % 10)]

/-- JS `String(n)` for a natural number. -/
def natStr (n : Nat) : List Char := natDigitsAux (n + 1) n

/-- JS `String(n)` for an integer. -/
def intStr (n : Int) : List Char :=
  if n < 0 then '-' :: natStr n.natAbs else natStr n.toNat

/-- The digit-prefix part of JS `parseInt`: `none` when no leading digit. -/
def parseDigits (l : List Char) : Option Nat :=
  let ds := l.takeWhile isDigitC
  if ds = [] then none else some (digitsToNat ds)

/-- JS `Number.parseInt(s, 10)`: skip leading whitespace, optional sign,
then the maximal run of decimal digits; `none` models `NaN`.  (We model the
result exactly as an integer; the float rounding JS applies to enormous
digit strings is outside the inputs this program meets.) -/
def parseIntJS (l : List Char) : Option Int :=
  match l.dropWhile isJsWs with
  | '-' :: rest => (parseDigits rest).map (fun n => -(n : Int))
  | '+' :: rest => (parseDigits rest).map (fun n => (n : Int))
  | s => (parseDigits s).map (fun n => (n : Int))

/-- `content.split('\n')` restricted to one separator character. -/
def splitOnChar (sep : Char) : List Char → List (List Char)
  | [] => [[]]
  | c :: cs =>
    if c = sep then [] :: splitOnChar sep cs
    else
      match splitOnChar sep cs with
      | [] => [[c]]
      | b :: bs => (c :: b) :: bs

/-- Worker for `split(/\n{2,}/)`: `pend` counts the newlines seen since the
last non-newline character, `cur` is the block being accumulated. -/
def sbAux : List Char → Nat → List Char → List (List Char)
  | [], pend, cur =>
    if 2 ≤ pend then [cur, []] else [cur ++ List.replicate pend '\n']
  | c :: rest, pend, cur =>
    if c = '\n' then sbAux rest (pend + 1) cur
    else if 2 ≤ pend then cur :: sbAux rest 0 [c]
    else sbAux rest 0 (cur ++ List.replicate pend '\n' ++ [c])

/-- `normalized.split(/\n{2,}/)`: blocks separated by runs of two or more
newline characters. -/
def splitBlocks (cs : List Char) : List (List Char) := sbAux cs 0 []

/-- `line.split('-->')`. -/
def splitArrow : List Char → List (List Char)
  | '-' :: '-' :: '>' :: rest => [] :: splitArrow rest
  | [] => [[]]
  | c :: cs =>
    match splitArrow cs with
    | [] => [[c]]
    | b :: bs => (c :: b) :: bs

/-- `line.includes('-->')`. -/
def containsArrow : List Char → Bool
  | '-' :: '-' :: '>' :: _ => true
  | [] => false
  | _ :: cs => containsArrow cs

/-- `content.replace(/\r\n/g, '\n')`. -/
def replCrLf : List Char → List Char
  | '\r' :: '\n' :: rest => '\n' :: replCrLf rest
  | [] => []
  | c :: rest => c :: replCrLf rest

/-- Line-ending normalization of `parseSrt`: CRLF to LF, then strip every
U+FEFF. -/
def normalizeInput (l : List Char) : List Char :=
  (replCrLf l).filter (fun c => c.toNat ≠ 65279)

/-- One attempted match of `(\d{2}):(\d{2}):(\d{2}),(\d{3})` anchored at the
head of the list, returning the four numeric groups. -/
def matchTCAt (l : List Char) : Option (Nat × Nat × Nat × Nat) :=
  match l with
  | a :: b :: c1 :: d :: e :: c2 :: f :: g :: c3 :: p :: q :: r :: _ =>
    if isDigitC a && isDigitC b && c1 = ':' && isDigitC d && isDigitC e &&
       c2 = ':' && isDigitC f && isDigitC g && c3 = ',' && isDigitC p &&
       isDigitC q && isDigitC r then
      some (digitVal a * 10 + digitVal b,
            digitVal d * 10 + digitVal e,
            digitVal f * 10 + digitVal g,
            digitVal p * 100 + digitVal q * 10 + digitVal r)
    else none
  | _ => none

/-- `timecode.match(/(\d{2}):(\d{2}):(\d{2}),(\d{3})/)`: the regex is not
anchored, so the engine scans left to right for the first position where the
fixed-shape pattern matches. -/
def findTC : List Char → Option (Nat × Nat × Nat × Nat)
  | [] => none
  | c :: cs =>
    match matchTCAt (c :: cs) with
    | some r => some r
    | none => findTC cs

/-- `timecodeToMs` from `parseSubs.ts` (a falsy input — `null` or the empty
string — yields `null`). -/
def timecodeToMs : Option (List Char) → Option Nat
  | none => none
  | some l =>
    if l = [] then none
    else
      (findTC l).map (fun q =>
        match q with
        | (hh, mm, ss, ms) => hh * 3600000 + mm * 60000 + ss * 1000 + ms)

/-- The exact `HH:MM:SS,mmm` rendering of four components (used only to
state theorems about the codec). -/
def formatTC (hh mm ss ms : Nat) : List Char :=
  [digitChar (hh / 10), digitChar (hh % 10), ':',
   digitChar (mm / 10), digitChar (mm % 10), ':',
   digitChar (ss / 10), digitChar (ss % 10), ',',
   digitChar (ms / 100), digitChar (ms / 10 % 10), digitChar (ms % 10)]

/-- Spec-side predicate: the string is exactly of the form `HH:MM:SS,mmm`
(twelve characters, digits and separators in place).  Used to state the
spec's notion of "matching the format". -/
def isExactHHMMSSmmm (l : List Char) : Bool :=
  match l with
  | [a, b, c1, d, e, c2, f, g, c3, p, q, r] =>
    isDigitC a && isDigitC b && c1 = ':' && isDigitC d && isDigitC e &&
    c2 = ':' && isDigitC f && isDigitC g && c3 = ',' && isDigitC p &&
    isDigitC q && isDigitC r
  | _ => false

structure SubtitleEntry where
  index : Nat
  rawId : Int
  start : Option (List Char)
  stop : Option (List Char)
  startMs : Option Nat
  endMs : Option Nat
  text : List Char
deriving DecidableEq, Repr

/-- The time-range and text steps of `parseSrt`'s loop body, applied to the
lines remaining at the cursor after the caption-number step: consume a line
containing `-->` into start/end strings, then trim, filter and join the
remaining lines into the text. -/
def tcStep (rawId : Int) (ls : List (List Char)) :
    Option (Int × Option (List Char) × Option (List Char) × List Char) :=
  let st3 : Option (List Char) × Option (List Char) × List (List Char) :=
    match ls with
    | [] => (none, none, [])
    | l :: r2 =>
      if containsArrow l then
        let parts := (splitArrow l).map trimJS
        (parts.get? 0, parts.get? 1, r2)
      else (none, none, l :: r2)
  let textLines :=
    (st3.2.2.map (fun l => trimJS (l.filter (fun c => c ≠ '\r')))).filter
      (fun l => l ≠ [])
  if textLines = [] then none
  else some (rawId, st3.1, st3.2.1, List.intercalate [' '] textLines)

/-- The per-block part of `parseSrt`'s loop body, over the block's lines:
skip leading blank lines; consume a leading `parseInt`-able line as the
declared `rawId` (otherwise synthesize `count + 1` and leave the cursor in
place); then apply the time-range and text steps. -/
def lineFields (count : Nat) (lines : List (List Char)) :
    Option (Int × Option (List Char) × Option (List Char) × List Char) :=
  match lines.dropWhile (fun l => trimJS l = []) with
  | [] => none
  | l0 :: rest1 =>
    match parseIntJS (trimJS l0) with
    | some n => tcStep n rest1
    | none => tcStep ((count : Int) + 1) (l0 :: rest1)

/-- Given the number of entries already produced and one block, return the
declared-or-synthesized `rawId`, the start/end timecode strings and the
joined text, or `none` when the block is discarded. -/
def blockFields (count : Nat) (block : List Char) :
    Option (Int × Option (List Char) × Option (List Char) × List Char) :=
  lineFields count (splitOnChar '\n' block)

def mkEntry (idx : Nat)
    (f : Int × Option (List Char) × Option (List Char) × List Char) :
    SubtitleEntry :=
  { index := idx
    rawId := f.1
    start := f.2.1
    stop := f.2.2.1
    startMs := timecodeToMs f.2.1
    endMs := timecodeToMs f.2.2.1
    text := f.2.2.2 }

def parseSrtAux : List (List Char) → List SubtitleEntry → List SubtitleEntry
  | [], acc => acc
  | b :: bs, acc =>
    match blockFields acc.length b with
    | none => parseSrtAux bs acc
    | some f => parseSrtAux bs (acc ++ [mkEntry (acc.length + 1) f])

/-- `parseSrt` from `parseSubs.ts`. -/
def parseSrt (content : List Char) : List SubtitleEntry :=
  parseSrtAux (splitBlocks (normalizeInput content)) []

structure Card where
  id : Nat
  subtitleId : Int
  sentence : List Char
  translation : List Char
  romaji : List Char
  furigana : List Char
  startTime : Option (List Char)
  endTime : Option (List Char)
  startMs : Option Nat
  endMs : Option Nat
deriving DecidableEq, Repr

def mkCard (idx : Nat) (e : SubtitleEntry) : Card :=
  { id := idx + 1
    subtitleId := e.rawId
    sentence := e.text
    translation := []
    romaji := []
    furigana := []
    startTime := e.start
    endTime := e.stop
    startMs := e.startMs
    endMs := e.endMs }

def buildCardsAux : List SubtitleEntry → Nat → List Card
  | [], _ => []
  | e :: es, i => mkCard i e :: buildCardsAux es (i + 1)

/-- `buildCards` from `parseSubs.ts` (`subtitles.map((entry, idx) => ...)`). -/
def buildCards (subs : List SubtitleEntry) : List Card :=
  buildCardsAux subs 0

/-- `value.replace(/\t/g, ' ')`. -/
def replTab (l : List Char) : List Char :=
  l.map (fun c => if c = '\t' then ' ' else c)

/-- `value.replace(/\r?\n/g, ' ')`: each newline, together with an
immediately preceding carriage return, becomes one space. -/
def replNewline : List Char → List Char
  | '\r' :: '\n' :: rest => ' ' :: replNewline rest
  | '\n' :: rest => ' ' :: replNewline rest
  | [] => []
  | c :: rest => c :: replNewline rest

/-- `clean` (identical in `parseSubs.ts` and `enrichCards.ts`):
`(value ?? '').replace(/\t/g, ' ').replace(/\r?\n/g, ' ').trim()`. -/
def clean (v : Option (List Char)) : List Char :=
  trimJS (replNewline (replTab (v.getD [])))

/-- `cardsToTsv` from `parseSubs.ts`. -/
def cardsToTsv (cards : List Card) : List Char :=
  List.intercalate ['\n']
    (cards.map (fun c => clean (some c.sentence) ++ '\t' :: clean (some c.translation)))

/-- A JS primitive value as it can occur in a translation-hint JSON file.
`vNum ip frac` is the finite decimal number whose canonical JS string form
is `ip`, followed by `.frac` when `frac` is nonempty; every number parsed
from the JSON files this program reads is of that shape and is finite, so
`typeof v === 'number' && Number.isFinite(v)` holds exactly of `vNum`. -/
inductive JsVal where
  | vNull : JsVal
  | vBool : Bool → JsVal
  | vNum : Int → List Char → JsVal
  | vStr : List Char → JsVal
deriving DecidableEq, Repr

/-- JS `String(v)`. -/
def jsToString : JsVal → List Char
  | .vNull => "null".data
  | .vBool true => "true".data
  | .vBool false => "false".data
  | .vNum ip frac => intStr ip ++ (if frac = [] then [] else '.' :: frac)
  | .vStr s => s

/-- `normalizeNumeric` from `enrichCards.ts`: finite numbers pass through
unchanged; anything else is `parseInt`ed, falling back to its string form
when the parse is `NaN`. -/
def normalizeNumeric (v : JsVal) : JsVal :=
  match v with
  | .vNum _ _ => v
  | _ =>
    match parseIntJS (jsToString v) with
    | some n => .vNum n []
    | none => .vStr (jsToString v)

/-- One raw object from a hint file: `vNull` stands for an absent (or
`null`) field. -/
structure RawEntry where
  id : JsVal
  subtitleId : JsVal
  sentence : JsVal
  translation : JsVal
deriving DecidableEq, Repr

structure TranslationEntry where
  id : Option JsVal
  subtitleId : Option JsVal
  sentence : Option (List Char)
  translation : List Char
deriving DecidableEq, Repr

/-- `sanitizeTranslationEntry` from `enrichCards.ts`. -/
def sanitizeTranslationEntry (e : RawEntry) : Option TranslationEntry :=
  match e.translation with
  | .vStr t =>
    let tr := trimJS t
    if tr = [] then none
    else
      some
        { id :=
            if e.id = .vNull ∨ e.id = .vStr [] then none
            else some (normalizeNumeric e.id)
          subtitleId :=
            if e.subtitleId = .vNull ∨ e.subtitleId = .vStr [] then none
            else some (normalizeNumeric e.subtitleId)
          sentence :=
            match e.sentence with
            | .vStr s => if trimJS s = [] then none else some (trimJS s)
            | _ => none
          translation := tr }
  | _ => none

/-- Lookup in our model of a JS `Map` (an association list whose keys are
kept unique by `mapSet`). -/
def alookup {α : Type} (m : List (List Char × α)) (k : List Char) : Option α :=
  match m with
  | [] => none
  | (k', v) :: rest => if k' = k then some v else alookup rest k

/-- JS `Map.prototype.set`: replace in place when the key exists (keeping
its insertion position), append otherwise. -/
def mapSet {α : Type} (m : List (List Char × α)) (k : List Char) (v : α) :
    List (List Char × α) :=
  if (alookup m k).isSome then
    m.map (fun p => if p.1 = k then (k, v) else p)
  else m ++ [(k, v)]

structure TranslationState where
  byId : List (List Char × List Char)
  bySubtitleId : List (List Char × List Char)
  bySentence : List (List Char × List Char)
  addedEntries : List TranslationEntry
  initialEntries : List TranslationEntry
deriving DecidableEq, Repr

def emptyTranslationState : TranslationState :=
  { byId := [], bySubtitleId := [], bySentence := [],
    addedEntries := [], initialEntries := [] }

/-- The `registerEntry` closure inside `loadTranslationHints`. -/
def registerEntry (st : TranslationState) (e : RawEntry) : TranslationState :=
  match sanitizeTranslationEntry e with
  | none => st
  | some se =>
    let st1 :=
      match se.id with
      | some idv => { st with byId := mapSet st.byId (jsToString idv) se.translation }
      | none => st
    let st2 :=
      match se.subtitleId with
      | some sv =>
        { st1 with bySubtitleId := mapSet st1.bySubtitleId (jsToString sv) se.translation }
      | none => st1
    let st3 :=
      match se.sentence with
      | some s =>
        if s = [] then st2
        else { st2 with bySentence := mapSet st2.bySentence s se.translation }
      | none => st2
    { st3 with initialEntries := st3.initialEntries ++ [se] }

/-- `loadTranslationHints` for the array-shaped hint file: register each
entry in order.  (The object-shaped file is reduced by the source to the
same `registerEntry` calls.) -/
def loadTranslationHints (entries : List RawEntry) : TranslationState :=
  entries.foldl registerEntry emptyTranslationState

/-- One token as returned by the external morphological capability; the
empty string models an absent (`undefined`) field, `"*"` is the analyzer's
wildcard sentinel. -/
structure IpadicToken where
  surface_form : List Char
  basic_form : List Char
  reading : List Char
  pos : List Char
  pos_detail_1 : List Char
  pos_detail_2 : List Char
  pos_detail_3 : List Char
deriving DecidableEq, Repr

structure TokenBreakdown where
  surface : List Char
  lemma_ : List Char
  reading : Option (List Char)
  pos : List Char
  meanings : Option (List (List Char))
deriving DecidableEq, Repr

structure DictionaryEntry where
  lemma_ : List Char
  reading : Option (List Char)
  pos : Option (List Char)
  meanings : Option (List (List Char))
deriving DecidableEq, Repr

/-- `katakanaToHiragana` from `enrichCards.ts`: shift each character in the
katakana block U+30A1–U+30F6 down by 0x60. -/
def katakanaToHiragana (l : List Char) : List Char :=
  l.map (fun c =>
    if 12449 ≤ c.toNat && c.toNat ≤ 12534 then Char.ofNat (c.toNat - 96) else c)

/-- `translatePosPart`, with the static `POS_MAP` table abstracted as a
lookup function (its contents do not affect the claims below). -/
def translatePosPart (posMap : List Char → Option (List Char))
    (part : List Char) : Option (List Char) :=
  if part = [] || part = ['*'] then none
  else
    some (List.intercalate ['/']
      ((splitOnChar (Char.ofNat 65295) part).map
        (fun seg => ((posMap (trimJS seg)).getD (trimJS seg)))))

/-- `buildPosLabel`: translate the four part-of-speech fields, drop falsy
results (`null` and the empty string), join with hyphens. -/
def buildPosLabel (posMap : List Char → Option (List Char))
    (t : IpadicToken) : List Char :=
  List.intercalate ['-']
    (([t.pos, t.pos_detail_1, t.pos_detail_2, t.pos_detail_3].map
        (translatePosPart posMap)).filterMap
      (fun o =>
        match o with
        | none => none
        | some s => if s = [] then none else some s))

/-- `normalizeToken` from `enrichCards.ts`. -/
def normalizeToken (posMap : List Char → Option (List Char))
    (dict : List Char → Option DictionaryEntry) (t : IpadicToken) :
    TokenBreakdown :=
  let lm := if t.basic_form ≠ [] ∧ t.basic_form ≠ ['*'] then t.basic_form
            else t.surface_form
  { surface := t.surface_form
    lemma_ := lm
    reading :=
      if t.reading ≠ [] ∧ t.reading ≠ ['*'] then some (katakanaToHiragana t.reading)
      else none
    pos := buildPosLabel posMap t
    meanings := (dict lm).bind (fun e => e.meanings) }

/-- `buildLiteralTranslation`: first gloss when present and truthy, else
the surface form, joined with spaces. -/
def buildLiteralTranslation (tokens : List TokenBreakdown) : List Char :=
  if tokens = [] then []
  else
    List.intercalate [' ']
      (tokens.map (fun t =>
        match t.meanings with
        | some (m :: _) => if m = [] then t.surface else m
        | _ => t.surface))

/-- `CardRecord` from `enrichCards.ts`; `extra` models the index signature
`[key: string]: unknown`. -/
structure CardRecord where
  id : Int
  subtitleId : Option Int
  sentence : Option (List Char)
  translation : Option (List Char)
  romaji : Option (List Char)
  furigana : Option (List Char)
  startTime : Option (List Char)
  endTime : Option (List Char)
  startMs : Option Int
  endMs : Option Int
  tokens : Option (List TokenBreakdown)
  extra : List (List Char × JsVal)
deriving DecidableEq, Repr

/-- Sentence lookup tail of `pickTranslation`. -/
def pickBySentence (card : CardRecord) (ts : TranslationState) :
    Option (List Char) :=
  let s := trimJS (card.sentence.getD [])
  if s = [] then none else alookup ts.bySentence s

/-- `pickTranslation` from `enrichCards.ts`. -/
def pickTranslation (card : CardRecord) (ts : TranslationState) :
    Option (List Char) :=
  match alookup ts.byId (intStr card.id) with
  | some v => some v
  | none =>
    match card.subtitleId with
    | some sid =>
      match alookup ts.bySubtitleId (intStr sid) with
      | some v => some v
      | none => pickBySentence card ts
    | none => pickBySentence card ts

/-- JS truthiness of a `string | null` variable. -/
def truthyS : Option (List Char) → Bool
  | some s => s ≠ []
  | none => false

inductive TransSource where
  | hint | card | literal | deepl
deriving DecidableEq, Repr

/-- Tiers 1–5 of `enrichCard`'s translation resolution: the value of the
`translation` / `translationSource` variables just before the
auto-translate step. -/
def resolveTiers (card : CardRecord) (ts : TranslationState)
    (translatorEnabled replace : Bool) (breakdown : List TokenBreakdown) :
    Option (List Char) × Option TransSource :=
  let tr0 := pickTranslation card ts
  let src0 : Option TransSource := if truthyS tr0 then some .hint else none
  let cardTranslation := trimJS (card.translation.getD [])
  let step1 : Option (List Char) × Option TransSource :=
    if ¬ truthyS tr0 ∧ cardTranslation ≠ [] ∧ (¬ translatorEnabled ∨ ¬ replace) then
      (some cardTranslation, some .card)
    else (tr0, src0)
  if ¬ truthyS step1.1 then (some (buildLiteralTranslation breakdown), some .literal)
  else step1

/-- The token breakdown `enrichCard` computes for a card. -/
def cardBreakdown (posMap : List Char → Option (List Char))
    (dict : List Char → Option DictionaryEntry)
    (tok : List Char → List IpadicToken) (card : CardRecord) :
    List TokenBreakdown :=
  ((tok (card.sentence.getD [])).map (normalizeToken posMap dict)).filter
    (fun t => trimJS t.surface ≠ [])

/-- `registerGeneratedTranslation` from `enrichCards.ts`. -/
def registerGeneratedTranslation (ts : TranslationState) (card : CardRecord)
    (tr : List Char) : TranslationState :=
  let ns := trimJS (card.sentence.getD [])
  let ts1 := { ts with byId := mapSet ts.byId (intStr card.id) tr }
  let ts2 :=
    match card.subtitleId with
    | some sid => { ts1 with bySubtitleId := mapSet ts1.bySubtitleId (intStr sid) tr }
    | none => ts1
  let ts3 :=
    if ns = [] then ts2
    else { ts2 with bySentence := mapSet ts2.bySentence ns tr }
  match sanitizeTranslationEntry
      { id := .vNum card.id []
        subtitleId :=
          match card.subtitleId with
          | some s => .vNum s []
          | none => .vNull
        sentence := if ns = [] then .vNull else .vStr ns
        translation := .vStr tr } with
  | some e => { ts3 with addedEntries := ts3.addedEntries ++ [e] }
  | none => ts3

/-- `enrichCard` from `enrichCards.ts`.  The translator argument models the
optional `TranslatorFn`; calling it returns the generated translation (or
`null`) together with the warnings it logged.  The returned triple is the
enriched card, the updated translation state, and the logged warnings. -/
def enrichCard (posMap : List Char → Option (List Char))
    (dict : List Char → Option DictionaryEntry)
    (tok : List Char → List IpadicToken)
    (translator : Option (CardRecord → Option (List Char) × List (List Char)))
    (replace : Bool) (ts : TranslationState) (card : CardRecord) :
    CardRecord × TranslationState × List (List Char) :=
  let breakdown := cardBreakdown posMap dict tok card
  let r := resolveTiers card ts translator.isSome replace breakdown
  let shouldAuto : Bool :=
    translator.isSome && (!truthyS r.1 || (replace && r.2 ≠ some .hint))
  match translator with
  | some f =>
    if shouldAuto then
      let g := f card
      if truthyS g.1 then
        ({ card with translation := some (g.1.getD []), tokens := some breakdown },
         registerGeneratedTranslation ts card (g.1.getD []), g.2)
      else
        ({ card with translation := some (r.1.getD []), tokens := some breakdown },
         ts, g.2)
    else
      ({ card with translation := some (r.1.getD []), tokens := some breakdown }, ts, [])
  | none =>
    ({ card with translation := some (r.1.getD []), tokens := some breakdown }, ts, [])

/-- The warning `createDeepLTranslator` logs when the service fails. -/
def deepLWarn (card : CardRecord) (msg : List Char) : List Char :=
  "DeepL translation failed for subtitle ".data ++
    (match card.subtitleId with
     | some s => intStr s
     | none => intStr card.id) ++ ": ".data ++ msg

/-- The translator closure returned by `createDeepLTranslator`, with the
external service modelled as a function returning `Except`: an exception is
caught, logged as a warning naming the card, and turned into `null`. -/
def deepLTranslate (service : List Char → Except (List Char) (List Char))
    (card : CardRecord) : Option (List Char) × List (List Char) :=
  let s := trimJS (card.sentence.getD [])
  if s = [] then (none, [])
  else
    match service s with
    | .ok t => (some (trimJS t), [])
    | .error m => (none, [deepLWarn card m])

/-- The sequential card loop of `main`. -/
def enrichAll (posMap : List Char → Option (List Char))
    (dict : List Char → Option DictionaryEntry)
    (tok : List Char → List IpadicToken)
    (translator : Option (CardRecord → Option (List Char) × List (List Char)))
    (replace : Bool) :
    TranslationState → List CardRecord →
      List CardRecord × TranslationState × List (List Char)
  | ts, [] => ([], ts, [])
  | ts, c :: cs =>
    let r := enrichCard posMap dict tok translator replace ts c
    let rest := enrichAll posMap dict tok translator replace r.2.1 cs
    (r.1 :: rest.1, rest.2.1, r.2.2 ++ rest.2.2)

/-- `cardsToTsv` from `enrichCards.ts` (over `CardRecord`). -/
def cardsToTsvR (cards : List CardRecord) : List Char :=
  List.intercalate ['\n']
    (cards.map (fun c => clean c.sentence ++ '\t' :: clean c.translation))

/-- The composite key and updated anonymous counter computed by `put`
inside `mergeTranslationEntries`. -/
def entryKey (ctr : Nat) (e : TranslationEntry) : List Char × Nat :=
  match e.subtitleId with
  | some v => ("subtitleId:".data ++ jsToString v, ctr)
  | none =>
    match e.id with
    | some v => ("id:".data ++ jsToString v, ctr)
    | none =>
      match e.sentence with
      | some s =>
        if s = [] then ("anon:".data ++ natStr ctr, ctr + 1)
        else ("sentence:".data ++ s, ctr)
      | none => ("anon:".data ++ natStr ctr, ctr + 1)

def mergeAux : List TranslationEntry → List (List Char × TranslationEntry) →
    Nat → List (List Char × TranslationEntry)
  | [], m, _ => m
  | e :: es, m, ctr =>
    let kc := entryKey ctr e
    mergeAux es (mapSet m kc.1 e) kc.2

/-- `mergeTranslationEntries` from `enrichCards.ts`: fold every entry into
a `Map` keyed by `entryKey`, then take the values in insertion order. -/
def mergeTranslationEntries (existing additions : List TranslationEntry) :
    List TranslationEntry :=
  (mergeAux (existing ++ additions) [] 0).map Prod.snd

structure PipelineOutput where
  cards : List CardRecord
  tsvOut : List Char
  warnings : List (List Char)
  finalState : TranslationState
  persisted : Option (List TranslationEntry)
deriving DecidableEq

/-- The core of `main` from `enrichCards.ts`: enrich every card in order,
write the JSON and TSV outputs, and persist the merged translation cache
when a save path is configured and entries were added. -/
def runPipeline (posMap : List Char → Option (List Char))
    (dict : List Char → Option DictionaryEntry)
    (tok : List Char → List IpadicToken)
    (translator : Option (CardRecord → Option (List Char) × List (List Char)))
    (replace savePath : Bool) (cards : List CardRecord)
    (ts0 : TranslationState) : PipelineOutput :=
  let r := enrichAll posMap dict tok translator replace ts0 cards
  { cards := r.1
    tsvOut := cardsToTsvR r.1
    warnings := r.2.2
    finalState := r.2.1
    persisted :=
      if savePath ∧ r.2.1.addedEntries ≠ [] then
        some (mergeTranslationEntries r.2.1.initialEntries r.2.1.addedEntries)
      else none }

/-! ## Basic lemmas about the string primitives -/

theorem isDigitC_digitChar (d : Nat) (h : d < 10) : isDigitC (digitChar d) = true := by
  interval_cases d <;> decide

theorem digitVal_digitChar (d : Nat) (h : d < 10) : digitVal (digitChar d) = d := by
  interval_cases d <;> decide

theorem digitsToNat_append_one (xs : List Char) (c : Char) :
    digitsToNat (xs ++ [c]) = digitsToNat xs * 10 + digitVal c := by
  simp [digitsToNat, List.foldl_append]

theorem digitsToNat_natDigitsAux (fuel : Nat) :
    ∀ n, n < fuel → digitsToNat (natDigitsAux fuel n) = n := by
  induction fuel with
  | zero => intro n h; omega
  | succ fuel ih =>
    intro n h
    rw [natDigitsAux]
    by_cases h10 : n < 10
    · rw [if_pos h10]
      simp [digitsToNat, digitVal_digitChar n h10]
    · rw [if_neg h10, digitsToNat_append_one,
        ih (n / 10) (by omega), digitVal_digitChar _ (by omega)]
      omega

theorem digitsToNat_natStr (n : Nat) : digitsToNat (natStr n) = n :=
  digitsToNat_natDigitsAux (n + 1) n (Nat.lt_succ_self n)

theorem natStr_injective (a b : Nat) (h : natStr a = natStr b) : a = b := by
  have := congrArg digitsToNat h
  rwa [digitsToNat_natStr, digitsToNat_natStr] at this

/-! ## Lemmas about `replTab`, `replNewline` and `trimJS` -/

theorem nl_not_mem_replNewline (l : List Char) : '\n' ∉ replNewline l := by
  induction l using replNewline.induct with
  | case1 rest ih => simpa [replNewline] using ih
  | case2 rest ih => simpa [replNewline] using ih
  | case3 => simp [replNewline]
  | case4 c rest h1 h2 ih =>
    rw [replNewline.eq_def]
    split
    · rename_i rest' heq
      cases heq
      exact ((h1 rest' rfl rfl)).elim
    · rename_i rest' heq
      cases heq
      exact ((h2 rfl)).elim
    · simp
    · rename_i c' rest' heq
      cases heq
      simp only [List.mem_cons, not_or]
      exact ⟨fun h => h2 h.symm, ih⟩

theorem mem_replNewline (l : List Char) (x : Char) (hx : x ∈ replNewline l) :
    x = ' ' ∨ x ∈ l := by
  induction l using replNewline.induct with
  | case1 rest ih =>
    rw [replNewline.eq_def] at hx
    simp only [List.mem_cons] at hx
    rcases hx with h | h
    · exact Or.inl h
    · rcases ih h with h' | h'
      · exact Or.inl h'
      · exact Or.inr (by simp [h'])
  | case2 rest ih =>
    rw [replNewline.eq_def] at hx
    simp only [List.mem_cons] at hx
    rcases hx with h | h
    · exact Or.inl h
    · rcases ih h with h' | h'
      · exact Or.inl h'
      · exact Or.inr (by simp [h'])
  | case3 => simp [replNewline] at hx
  | case4 c rest h1 h2 ih =>
    rw [replNewline.eq_def] at hx
    split at hx
    · rename_i rest' heq
      cases heq
      exact ((h1 rest' rfl rfl)).elim
    · rename_i rest' heq
      cases heq
      exact ((h2 rfl)).elim
    · simp at hx
    · rename_i c' rest' heq
      cases heq
      simp only [List.mem_cons] at hx
      rcases hx with h | h
      · exact Or.inr (by simp [h])
      · rcases ih h with h' | h'
        · exact Or.inl h'
        · exact Or.inr (by simp [h'])

theorem replNewline_of_no_nl (l : List Char) (h : '\n' ∉ l) : replNewline l = l := by
  induction l using replNewline.induct with
  | case1 rest ih => simp at h
  | case2 rest ih => simp at h
  | case3 => rfl
  | case4 c rest h1 h2 ih =>
    rw [replNewline.eq_def]
    split
    · rename_i rest' heq
      cases heq
      exact ((h1 rest' rfl rfl)).elim
    · rename_i rest' heq
      cases heq
      exact ((h2 rfl)).elim
    · rename_i heq
      simp at heq
    · rename_i c' rest' heq
      cases heq
      rw [ih (fun hm => h (List.mem_cons_of_mem _ hm))]

theorem replTab_no_tab (l : List Char) : '\t' ∉ replTab l := by
  simp only [replTab, List.mem_map, not_exists]
  rintro x ⟨hx, heq⟩
  by_cases h : x = '\t' <;> simp [h] at heq

theorem replTab_of_no_tab (l : List Char) (h : '\t' ∉ l) : replTab l = l := by
  induction l with
  | nil => rfl
  | cons c t ih =>
    simp only [List.mem_cons, not_or] at h
    simp only [replTab, List.map_cons]
    rw [if_neg (fun hc => h.1 hc.symm)]
    exact congrArg (List.cons c) (ih h.2)

theorem trimJS_sublist (l : List Char) : (trimJS l).Sublist l := by
  unfold trimJS
  exact (List.rdropWhile_prefix _ _).sublist.trans (List.dropWhile_suffix _).sublist

theorem trimJS_idem (l : List Char) : trimJS (trimJS l) = trimJS l := by
  unfold trimJS
  have h1 : (((l.dropWhile isJsWs).rdropWhile isJsWs).dropWhile isJsWs) =
      (l.dropWhile isJsWs).rdropWhile isJsWs := by
    rw [List.dropWhile_eq_self_iff]
    intro hl
    have hpfx := List.rdropWhile_prefix isJsWs (l.dropWhile isJsWs)
    have hlen : 0 < (l.dropWhile isJsWs).length :=
      lt_of_lt_of_le hl hpfx.length_le
    have hget := List.IsPrefix.getElem hpfx hl
    have hnot := List.dropWhile_get_zero_not (p := isJsWs) l hlen
    simp only [List.get_eq_getElem] at hnot ⊢
    rw [hget]
    exact hnot
  rw [h1, List.rdropWhile_idempotent]

/-- C9: the tabular-output sanitization `clean` is idempotent: applying the
tab replacement, newline replacement and trim to an already-sanitized
string returns it unchanged. -/
theorem c9_clean_idempotent (v : Option (List Char)) :
    clean (some (clean v)) = clean v := by
  unfold clean
  set x := replNewline (replTab (v.getD [])) with hx
  have hsub := trimJS_sublist x
  have htab : '\t' ∉ trimJS x := by
    intro hmem
    have hx1 := hsub.mem hmem
    rcases mem_replNewline _ _ hx1 with h | h
    · exact absurd h (by decide)
    · exact replTab_no_tab _ h
  have hnl : '\n' ∉ trimJS x := by
    intro hmem
    exact nl_not_mem_replNewline _ (hsub.mem hmem)
  simp only [Option.getD_some]
  rw [replTab_of_no_tab _ htab, replNewline_of_no_nl _ hnl, trimJS_idem]

/-! ## C6: the timecode codec -/

/-- C6 counterexample: the claim says every input not in `HH:MM:SS,mmm`
form yields `null`, but the regex is unanchored, so a string with extra
leading characters still produces a millisecond value. -/
theorem c6_counterexample :
    timecodeToMs (some ("x00:00:01,000".data)) = some 1000 ∧
    isExactHHMMSSmmm ("x00:00:01,000".data) = false := by
  exact ⟨by decide, by decide⟩

theorem findTC_of_matchTCAt (l : List Char) (r : Nat × Nat × Nat × Nat)
    (h : matchTCAt l = some r) : findTC l = some r := by
  cases l with
  | nil => simp [matchTCAt] at h
  | cons c cs => simp [findTC, h]

theorem matchTCAt_formatTC (hh mm ss ms : Nat) (h1 : hh < 100) (h2 : mm < 100)
    (h3 : ss < 100) (h4 : ms < 1000) :
    matchTCAt (formatTC hh mm ss ms) = some (hh, mm, ss, ms) := by
  have d1 : hh / 10 < 10 := by omega
  have d2 : hh % 10 < 10 := by omega
  have d3 : mm / 10 < 10 := by omega
  have d4 : mm % 10 < 10 := by omega
  have d5 : ss / 10 < 10 := by omega
  have d6 : ss % 10 < 10 := by omega
  have d7 : ms / 100 < 10 := by omega
  have d8 : ms / 10 % 10 < 10 := by omega
  have d9 : ms % 10 < 10 := by omega
  simp only [formatTC, matchTCAt]
  rw [if_pos]
  · rw [digitVal_digitChar _ d1, digitVal_digitChar _ d2, digitVal_digitChar _ d3,
      digitVal_digitChar _ d4, digitVal_digitChar _ d5, digitVal_digitChar _ d6,
      digitVal_digitChar _ d7, digitVal_digitChar _ d8, digitVal_digitChar _ d9]
    simp only [Option.some.injEq, Prod.mk.injEq]
    omega
  · simp [isDigitC_digitChar _ d1, isDigitC_digitChar _ d2, isDigitC_digitChar _ d3,
      isDigitC_digitChar _ d4, isDigitC_digitChar _ d5, isDigitC_digitChar _ d6,
      isDigitC_digitChar _ d7, isDigitC_digitChar _ d8, isDigitC_digitChar _ d9]

/-- C6 (amended): for a string that is exactly `HH:MM:SS,mmm` the codec
returns `H*3600000 + M*60000 + S*1000 + ms`; `null` input yields `null`;
and an input in which the pattern occurs nowhere (as a substring — the
regex is unanchored) yields `null`.  What the original claim got wrong is
only that a non-matching *exact* form can still contain a matching
substring and then yields a value. -/
theorem c6_timecode_amended (hh mm ss ms : Nat) (h1 : hh < 100) (h2 : mm < 100)
    (h3 : ss < 100) (h4 : ms < 1000) :
    timecodeToMs (some (formatTC hh mm ss ms)) =
      some (hh * 3600000 + mm * 60000 + ss * 1000 + ms) ∧
    timecodeToMs none = none ∧
    (∀ l : List Char, findTC l = none → timecodeToMs (some l) = none) := by
  refine ⟨?_, rfl, ?_⟩
  · have hne : formatTC hh mm ss ms ≠ [] := by simp [formatTC]
    have hfind : findTC (formatTC hh mm ss ms) = some (hh, mm, ss, ms) :=
      findTC_of_matchTCAt _ _ (matchTCAt_formatTC hh mm ss ms h1 h2 h3 h4)
    rw [timecodeToMs, if_neg hne, hfind]
    rfl
  · intro l hl
    rw [timecodeToMs]
    by_cases h : l = []
    · rw [if_pos h]
    · rw [if_neg h, hl]
      rfl

/-- C6 witness: the amended codec theorem applied at `12:34:56,789`. -/
theorem c6_timecode_amended_witness :
    timecodeToMs (some (formatTC 12 34 56 789)) =
      some (12 * 3600000 + 34 * 60000 + 56 * 1000 + 789) :=
  (c6_timecode_amended 12 34 56 789 (by decide) (by decide) (by decide)
    (by decide)).1

/-! ## C4: the caption-number step of the block parser -/

/-- C4 counterexample: a block whose first non-blank line is a timecode
range line does NOT yield an entry with start/end populated — JS
`parseInt("00:00:01,000 --> 00:00:02,500", 10)` is `0` (a finite number),
so the line is consumed as `rawId = 0` and the time-range step looks at the
next line instead. -/
theorem c4_counterexample :
    parseSrt ("00:00:01,000 --> 00:00:02,500\nhello".data) =
      [{ index := 1, rawId := 0, start := none, stop := none,
         startMs := none, endMs := none, text := "hello".data }] := by
  decide

/-- C4 (amended): for a block whose first non-blank line is `l0`, the line
is consumed as the declared `rawId` exactly when JS `parseInt` of its
trimmed text yields an integer — i.e. the trimmed line has a decimal-digit
prefix after an optional sign, not only when the whole line is an integer.
In that case the time-range step examines the following lines; only when
`parseInt` yields `NaN` is `rawId` synthesized as `count + 1` with the same
line fed to the time-range step.  (So a timecode-first block is consumed as
`rawId 0`, with start/end left null — see the counterexample.) -/
theorem c4_rawid_amended (count : Nat) (l0 : List Char)
    (rest : List (List Char)) (hnb : trimJS l0 ≠ []) :
    (∀ n : Int, parseIntJS (trimJS l0) = some n →
      lineFields count (l0 :: rest) = tcStep n rest) ∧
    (parseIntJS (trimJS l0) = none →
      lineFields count (l0 :: rest) = tcStep ((count : Int) + 1) (l0 :: rest)) := by
  constructor
  · intro n hn
    simp [lineFields, List.dropWhile, hnb, hn]
  · intro hn
    simp [lineFields, List.dropWhile, hnb, hn]

/-- C4 witness: the amended theorem applied to the counterexample's block,
whose timecode-first line parses as the integer 0 and is consumed. -/
theorem c4_rawid_amended_witness :
    lineFields 0 ["00:00:01,000 --> 00:00:02,500".data, "hello".data] =
      tcStep 0 ["hello".data] :=
  (c4_rawid_amended 0 ("00:00:01,000 --> 00:00:02,500".data)
    [("hello".data)] (by decide)).1 0 (by decide)

/-! ## C5: block splitting -/

/-- C5 counterexample: two caption units separated by a single blank line
(`"hello\n\nworld"` has exactly one empty line between the units) are split
into two blocks and parsed as two entries, not one — `split(/\n{2,}/)`
fires on two consecutive newline characters, which is one blank line. -/
theorem c5_counterexample :
    splitBlocks ("hello\n\nworld".data) = ["hello".data, "world".data] ∧
    (parseSrt ("hello\n\nworld".data)).length = 2 := by
  exact ⟨by decide, by decide⟩

theorem sbAux_nil (pend : Nat) (cur : List Char) :
    sbAux [] pend cur =
      if 2 ≤ pend then [cur, []] else [cur ++ List.replicate pend '\n'] := rfl

theorem sbAux_cons (c : Char) (xs cur : List Char) (pend : Nat) :
    sbAux (c :: xs) pend cur =
      if c = '\n' then sbAux xs (pend + 1) cur
      else if 2 ≤ pend then cur :: sbAux xs 0 [c]
      else sbAux xs 0 (cur ++ List.replicate pend '\n' ++ [c]) := rfl

theorem sbAux_no_nl (a : List Char) (ha : '\n' ∉ a) :
    ∀ (rest cur : List Char), sbAux (a ++ rest) 0 cur = sbAux rest 0 (cur ++ a) := by
  induction a with
  | nil => intro rest cur; simp
  | cons c t ih =>
    intro rest cur
    simp only [List.mem_cons, not_or] at ha
    rw [List.cons_append, sbAux_cons, if_neg (fun h => ha.1 h.symm),
      if_neg (by omega), ih ha.2]
    simp [List.append_assoc]

theorem sbAux_replicate (k : Nat) :
    ∀ (pend : Nat) (rest cur : List Char),
      sbAux (List.replicate k '\n' ++ rest) pend cur = sbAux rest (pend + k) cur := by
  induction k with
  | zero => intro pend rest cur; simp
  | succ k ih =>
    intro pend rest cur
    rw [List.replicate_succ, List.cons_append, sbAux_cons, if_pos rfl,
      ih (pend + 1)]
    congr 1
    omega

theorem sbAux_end_hi (b : List Char) (hb : '\n' ∉ b) (cur : List Char)
    (pend : Nat) (hp : 2 ≤ pend) : sbAux b pend cur = [cur, b] := by
  cases b with
  | nil => rw [sbAux_nil, if_pos hp]
  | cons c t =>
    simp only [List.mem_cons, not_or] at hb
    rw [sbAux_cons, if_neg (fun h => hb.1 h.symm), if_pos hp]
    have h2 := sbAux_no_nl t hb.2 [] [c]
    rw [List.append_nil] at h2
    rw [h2, sbAux_nil]
    simp

theorem sbAux_end_one (b : List Char) (hb : '\n' ∉ b) (cur : List Char) :
    sbAux b 1 cur = [cur ++ '\n' :: b] := by
  cases b with
  | nil => rw [sbAux_nil, if_neg (by omega)]; simp [List.replicate]
  | cons c t =>
    simp only [List.mem_cons, not_or] at hb
    rw [sbAux_cons, if_neg (fun h => hb.1 h.symm), if_neg (by omega)]
    have h2 := sbAux_no_nl t hb.2 [] (cur ++ List.replicate 1 '\n' ++ [c])
    rw [List.append_nil] at h2
    rw [h2, sbAux_nil]
    simp [List.replicate, List.append_assoc]

/-- C5 (amended): the splitter fires on every run of two or more
consecutive NEWLINE characters — that is, on any maximal run of one or more
blank (empty) lines.  Two units separated by `k ≥ 2` newline characters
(`k - 1` blank lines, so in particular a single blank line) form two
blocks; only units separated by a single newline character (a plain line
break, no blank line) stay in one block. -/
theorem c5_split_amended (a b : List Char) (ha : '\n' ∉ a) (hb : '\n' ∉ b) :
    (∀ k : Nat, 2 ≤ k →
      splitBlocks (a ++ List.replicate k '\n' ++ b) = [a, b]) ∧
    splitBlocks (a ++ '\n' :: b) = [a ++ '\n' :: b] := by
  constructor
  · intro k hk
    unfold splitBlocks
    rw [List.append_assoc, sbAux_no_nl a ha, sbAux_replicate]
    rw [sbAux_end_hi b hb _ _ (by omega)]
    simp
  · unfold splitBlocks
    have : a ++ '\n' :: b = a ++ (List.replicate 1 '\n' ++ b) := by
      simp [List.replicate]
    rw [this, sbAux_no_nl a ha, sbAux_replicate]
    rw [sbAux_end_one b hb]
    simp

/-- C5 witness: the amended splitting theorem applied at two concrete
one-character units, with two newlines (one blank line) between them. -/
theorem c5_split_amended_witness :
    splitBlocks ("x".data ++ List.replicate 2 '\n' ++ "y".data) =
      ["x".data, "y".data] :=
  (c5_split_amended ("x".data) ("y".data) (by decide) (by decide)).1 2
    (by decide)

/-! ## C7: contiguous indices and verbatim field copies -/

theorem tcStep_isSome (r r' : Int) (ls : List (List Char)) :
    (tcStep r ls).isSome = (tcStep r' ls).isSome := by
  unfold tcStep
  simp only []
  split_ifs <;> simp

theorem blockFields_isSome_congr (c c' : Nat) (b : List Char) :
    (blockFields c b).isSome = (blockFields c' b).isSome := by
  unfold blockFields lineFields
  split
  · rfl
  · split
    · rfl
    · exact tcStep_isSome _ _ _

theorem parseSrtAux_length (blocks : List (List Char)) :
    ∀ acc : List SubtitleEntry,
      (parseSrtAux blocks acc).length =
        acc.length + blocks.countP (fun b => (blockFields 0 b).isSome) := by
  induction blocks with
  | nil => intro acc; simp [parseSrtAux]
  | cons b bs ih =>
    intro acc
    rw [parseSrtAux]
    cases hb : blockFields acc.length b with
    | none =>
      have h0 : (blockFields 0 b).isSome = false := by
        rw [blockFields_isSome_congr 0 acc.length, hb, Option.isSome_none]
      rw [ih acc, List.countP_cons]
      simp [h0]
    | some f =>
      have h0 : (blockFields 0 b).isSome = true := by
        rw [blockFields_isSome_congr 0 acc.length, hb, Option.isSome_some]
      rw [ih _, List.countP_cons]
      simp only [h0, List.length_append, List.length_singleton, if_true]
      omega

theorem parseSrtAux_index (blocks : List (List Char)) :
    ∀ (acc : List SubtitleEntry),
      (∀ i (h : i < acc.length), (acc.get ⟨i, h⟩).index = i + 1) →
      ∀ i (h : i < (parseSrtAux blocks acc).length),
        ((parseSrtAux blocks acc).get ⟨i, h⟩).index = i + 1 := by
  induction blocks with
  | nil => intro acc hacc; exact hacc
  | cons b bs ih =>
    intro acc hacc
    rw [parseSrtAux]
    cases hb : blockFields acc.length b with
    | none => exact ih acc hacc
    | some f =>
      refine ih _ ?_
      intro i h
      simp only [List.length_append, List.length_singleton] at h
      by_cases hi : i < acc.length
      · have := hacc i hi
        simp only [List.get_eq_getElem] at this ⊢
        rwa [List.getElem_append_left hi]
      · have hieq : i = acc.length := by omega
        subst hieq
        simp only [List.get_eq_getElem]
        rw [List.getElem_append_right (le_refl _)]
        simp [mkEntry]

theorem buildCardsAux_length (es : List SubtitleEntry) :
    ∀ i, (buildCardsAux es i).length = es.length := by
  induction es with
  | nil => intro i; rfl
  | cons e t ih => intro i; simp [buildCardsAux, ih]

theorem buildCardsAux_get (es : List SubtitleEntry) :
    ∀ (i j : Nat) (h : j < (buildCardsAux es i).length) (h' : j < es.length),
      (buildCardsAux es i).get ⟨j, h⟩ = mkCard (i + j) (es.get ⟨j, h'⟩) := by
  induction es with
  | nil => intro i j h h'; simp at h'
  | cons e t ih =>
    intro i j h h'
    cases j with
    | zero => simp [buildCardsAux]
    | succ j' =>
      simp only [buildCardsAux, List.get_eq_getElem, List.getElem_cons_succ]
      have hh : j' < (buildCardsAux t (i + 1)).length := by
        rw [buildCardsAux_length]
        simpa using h'
      have := ih (i + 1) j' hh (by simpa using h')
      simp only [List.get_eq_getElem] at this
      rw [this]
      congr 1
      omega

/-- C7: for any input, parsing yields one entry per caption block that
yields non-empty text, the entries carry contiguous `index` values `1..N`,
and the card builder maps entry `i` to a card with `id = i` (contiguous
regardless of `rawId`), `subtitleId = rawId`, `sentence = text` and the
time fields copied verbatim (`mkCard` is exactly that copy). -/
theorem c7_contiguous_ids (content : List Char) :
    (parseSrt content).length =
      (splitBlocks (normalizeInput content)).countP
        (fun b => (blockFields 0 b).isSome) ∧
    (buildCards (parseSrt content)).length = (parseSrt content).length ∧
    (∀ i (h : i < (parseSrt content).length),
      ((parseSrt content).get ⟨i, h⟩).index = i + 1) ∧
    (∀ i (h : i < (buildCards (parseSrt content)).length)
        (h' : i < (parseSrt content).length),
      (buildCards (parseSrt content)).get ⟨i, h⟩ =
        mkCard i ((parseSrt content).get ⟨i, h'⟩)) := by
  refine ⟨?_, ?_, ?_, ?_⟩
  · rw [parseSrt, parseSrtAux_length]
    simp
  · rw [buildCards, buildCardsAux_length]
  · intro i h
    exact parseSrtAux_index _ [] (by intro i h; simp at h) i h
  · intro i h h'
    have := buildCardsAux_get (parseSrt content) 0 i h h'
    simpa using this

/-- C7 witness: applied to a two-block input whose declared ids are both
`7`, the second entry still has index 2 and the second card id 2. -/
theorem c7_contiguous_ids_witness :
    ((parseSrt ("7\nhello\n\n\n7\nworld".data)).get ⟨1, by decide⟩).index = 1 + 1 ∧
    (buildCards (parseSrt ("7\nhello\n\n\n7\nworld".data))).get ⟨1, by decide⟩ =
      mkCard 1 ((parseSrt ("7\nhello\n\n\n7\nworld".data)).get ⟨1, by decide⟩) :=
  ⟨(c7_contiguous_ids ("7\nhello\n\n\n7\nworld".data)).2.2.1 1 (by decide),
   (c7_contiguous_ids ("7\nhello\n\n\n7\nworld".data)).2.2.2 1 (by decide) (by decide)⟩

/-! ## C8: enrichment touches only `translation` and `tokens` -/

/-- C8: enrichment changes only the `translation` and `tokens` fields of a
card; every other field — `id`, `subtitleId`, `sentence`, `romaji`,
`furigana`, the four time fields and any extra fields — appears unchanged
in the enriched output card (the source returns `{ ...card, translation,
tokens }`). -/
theorem c8_enrich_frame (posMap : List Char → Option (List Char))
    (dict : List Char → Option DictionaryEntry)
    (tok : List Char → List IpadicToken)
    (translator : Option (CardRecord → Option (List Char) × List (List Char)))
    (replace : Bool) (ts : TranslationState) (card : CardRecord) :
    ((enrichCard posMap dict tok translator replace ts card).1.id = card.id) ∧
    ((enrichCard posMap dict tok translator replace ts card).1.subtitleId = card.subtitleId) ∧
    ((enrichCard posMap dict tok translator replace ts card).1.sentence = card.sentence) ∧
    ((enrichCard posMap dict tok translator replace ts card).1.romaji = card.romaji) ∧
    ((enrichCard posMap dict tok translator replace ts card).1.furigana = card.furigana) ∧
    ((enrichCard posMap dict tok translator replace ts card).1.startTime = card.startTime) ∧
    ((enrichCard posMap dict tok translator replace ts card).1.endTime = card.endTime) ∧
    ((enrichCard posMap dict tok translator replace ts card).1.startMs = card.startMs) ∧
    ((enrichCard posMap dict tok translator replace ts card).1.endMs = card.endMs) ∧
    ((enrichCard posMap dict tok translator replace ts card).1.extra = card.extra) := by
  cases translator with
  | none => simp [enrichCard]
  | some f =>
    unfold enrichCard
    simp only [Option.isSome_some]
    split
    · split <;> simp
    · simp

/-! ## Shared lemmas about the translation tiers -/

theorem pickTranslation_of_byId (card : CardRecord) (ts : TranslationState)
    (v : List Char) (h : alookup ts.byId (intStr card.id) = some v) :
    pickTranslation card ts = some v := by
  simp [pickTranslation, h]

theorem resolveTiers_of_hint (card : CardRecord) (ts : TranslationState)
    (e r : Bool) (bd : List TokenBreakdown) (v : List Char)
    (h : pickTranslation card ts = some v) (hv : v ≠ []) :
    resolveTiers card ts e r bd = (some v, some TransSource.hint) := by
  simp [resolveTiers, h, truthyS, hv]

theorem enrichCard_of_hint (posMap : List Char → Option (List Char))
    (dict : List Char → Option DictionaryEntry)
    (tok : List Char → List IpadicToken)
    (translator : Option (CardRecord → Option (List Char) × List (List Char)))
    (replace : Bool) (ts : TranslationState) (card : CardRecord)
    (v : List Char) (h : pickTranslation card ts = some v) (hv : v ≠ []) :
    (enrichCard posMap dict tok translator replace ts card).1.translation = some v := by
  cases translator with
  | none =>
    simp [enrichCard, resolveTiers_of_hint card ts false replace _ v h hv]
  | some f =>
    have hres : ∀ bd, resolveTiers card ts true replace bd =
        (some v, some TransSource.hint) :=
      fun bd => resolveTiers_of_hint card ts true replace bd v h hv
    simp [enrichCard, hres, truthyS, hv]

theorem enrichCard_of_card_translation (posMap : List Char → Option (List Char))
    (dict : List Char → Option DictionaryEntry)
    (tok : List Char → List IpadicToken)
    (translator : Option (CardRecord → Option (List Char) × List (List Char)))
    (replace : Bool) (ts : TranslationState) (card : CardRecord)
    (h : pickTranslation card ts = none)
    (hct : trimJS (card.translation.getD []) ≠ [])
    (hmode : translator = none ∨ replace = false) :
    (enrichCard posMap dict tok translator replace ts card).1.translation =
      some (trimJS (card.translation.getD [])) := by
  cases translator with
  | none => simp [enrichCard, resolveTiers, h, truthyS, hct]
  | some f =>
    have hr : replace = false := by
      rcases hmode with h' | h'
      · exact absurd h' (by simp)
      · exact h'
    subst hr
    simp [enrichCard, resolveTiers, h, truthyS, hct]

/-- C1: translation resolution is strictly ordered — a hint keyed by the
card's `id` as a string wins over one keyed by `subtitleId`, which wins
over one keyed by the trimmed sentence, which wins over the card's own
non-empty trimmed `translation`; and the card's own translation is used
only when no hint matched and auto-translation is disabled or configured to
preserve existing values (with force-replace, the card tier is never the
source). -/
theorem c1_translation_priority (posMap : List Char → Option (List Char))
    (dict : List Char → Option DictionaryEntry)
    (tok : List Char → List IpadicToken)
    (translator : Option (CardRecord → Option (List Char) × List (List Char)))
    (replace : Bool) (ts : TranslationState) (card : CardRecord) :
    (∀ v, alookup ts.byId (intStr card.id) = some v → v ≠ [] →
      (enrichCard posMap dict tok translator replace ts card).1.translation = some v) ∧
    (∀ sid v, alookup ts.byId (intStr card.id) = none →
      card.subtitleId = some sid →
      alookup ts.bySubtitleId (intStr sid) = some v → v ≠ [] →
      (enrichCard posMap dict tok translator replace ts card).1.translation = some v) ∧
    (∀ v, alookup ts.byId (intStr card.id) = none →
      (∀ sid, card.subtitleId = some sid → alookup ts.bySubtitleId (intStr sid) = none) →
      trimJS (card.sentence.getD []) ≠ [] →
      alookup ts.bySentence (trimJS (card.sentence.getD [])) = some v → v ≠ [] →
      (enrichCard posMap dict tok translator replace ts card).1.translation = some v) ∧
    (pickTranslation card ts = none → trimJS (card.translation.getD []) ≠ [] →
      (translator = none ∨ replace = false) →
      (enrichCard posMap dict tok translator replace ts card).1.translation =
        some (trimJS (card.translation.getD []))) ∧
    (∀ f, translator = some f → replace = true →
      (resolveTiers card ts true replace (cardBreakdown posMap dict tok card)).2 ≠
        some TransSource.card) := by
  refine ⟨?_, ?_, ?_, ?_, ?_⟩
  · intro v h hv
    exact enrichCard_of_hint _ _ _ _ _ _ _ v (pickTranslation_of_byId card ts v h) hv
  · intro sid v h1 h2 h3 hv
    have hp : pickTranslation card ts = some v := by
      simp [pickTranslation, h1, h2, h3]
    exact enrichCard_of_hint _ _ _ _ _ _ _ v hp hv
  · intro v h1 h2 h3 h4 hv
    have hp : pickTranslation card ts = some v := by
      unfold pickTranslation
      rw [h1]
      cases hs : card.subtitleId with
      | none => simp [pickBySentence, h3, h4]
      | some sid => simp [h2 sid hs, pickBySentence, h3, h4]
    exact enrichCard_of_hint _ _ _ _ _ _ _ v hp hv
  · intro h hct hmode
    exact enrichCard_of_card_translation _ _ _ _ _ _ _ h hct hmode
  · intro f hf hr
    subst hr
    simp only [resolveTiers]
    split_ifs with h1 h2 h3 <;> try simp
    rcases h1.2.2 with hc | hc <;> exact (hc (by trivial)).elim

/-- C1 witness: a hint keyed `"05"` (normalized to `"5"`) resolves a card
with id 5, beating the card's own translation. -/
theorem c1_translation_priority_witness :
    (enrichCard (fun _ => none) (fun _ => none) (fun _ => []) none true
        (loadTranslationHints
          [{ id := JsVal.vStr "05".data, subtitleId := JsVal.vNull,
             sentence := JsVal.vNull,
             translation := JsVal.vStr "Hello there".data }])
        { id := 5, subtitleId := some 12, sentence := some "abc".data,
          translation := some "mine".data, romaji := none, furigana := none,
          startTime := none, endTime := none, startMs := none, endMs := none,
          tokens := none, extra := [] }).1.translation =
      some ("Hello there".data) :=
  (c1_translation_priority (fun _ => none) (fun _ => none) (fun _ => []) none
      true _ _).1 ("Hello there".data) (by decide) (by decide)

/-! ## C2: external-capability failures degrade, never abort -/

theorem deepLTranslate_fail (errmsg : List Char) (card : CardRecord) :
    deepLTranslate (fun _ => .error errmsg) card =
      (none, if trimJS (card.sentence.getD []) = [] then []
             else [deepLWarn card errmsg]) := by
  unfold deepLTranslate
  split_ifs with h <;> simp [h]

theorem enrichAll_length (posMap : List Char → Option (List Char))
    (dict : List Char → Option DictionaryEntry)
    (tok : List Char → List IpadicToken)
    (translator : Option (CardRecord → Option (List Char) × List (List Char)))
    (replace : Bool) (cards : List CardRecord) :
    ∀ ts : TranslationState,
      (enrichAll posMap dict tok translator replace ts cards).1.length =
        cards.length := by
  induction cards with
  | nil => intro ts; rfl
  | cons c cs ih => intro ts; simp [enrichAll, ih]

/-- C2: when the external translation capability always fails, the enriched
card keeps the previously-determined tier 4/5 translation, nothing is
registered in the translation state, a warning naming the card is logged
whenever the capability was actually invoked, and the whole pipeline still
completes with one output card per input card and the TSV output produced;
moreover a hint match is never overridden by auto-translation, whatever the
translator and force-replace setting. -/
theorem c2_failure_resilience (posMap : List Char → Option (List Char))
    (dict : List Char → Option DictionaryEntry)
    (tok : List Char → List IpadicToken) (replace : Bool)
    (ts : TranslationState) (card : CardRecord) (errmsg : List Char) :
    ((enrichCard posMap dict tok (some (deepLTranslate (fun _ => .error errmsg)))
        replace ts card).1.translation =
      some ((resolveTiers card ts true replace
        (cardBreakdown posMap dict tok card)).1.getD [])) ∧
    ((enrichCard posMap dict tok (some (deepLTranslate (fun _ => .error errmsg)))
        replace ts card).2.1 = ts) ∧
    (trimJS (card.sentence.getD []) ≠ [] →
      (!truthyS (resolveTiers card ts true replace
          (cardBreakdown posMap dict tok card)).1 ||
        (replace && ((resolveTiers card ts true replace
          (cardBreakdown posMap dict tok card)).2 ≠ some TransSource.hint))) = true →
      (enrichCard posMap dict tok (some (deepLTranslate (fun _ => .error errmsg)))
        replace ts card).2.2 = [deepLWarn card errmsg]) ∧
    (∀ (f : CardRecord → Option (List Char) × List (List Char)) (r : Bool)
        (v : List Char), pickTranslation card ts = some v → v ≠ [] →
      (enrichCard posMap dict tok (some f) r ts card).1.translation = some v) ∧
    (∀ (cards : List CardRecord) (ts0 : TranslationState) (savePath : Bool),
      (runPipeline posMap dict tok
          (some (deepLTranslate (fun _ => .error errmsg))) replace savePath
          cards ts0).cards.length = cards.length ∧
      (runPipeline posMap dict tok
          (some (deepLTranslate (fun _ => .error errmsg))) replace savePath
          cards ts0).tsvOut =
        cardsToTsvR ((runPipeline posMap dict tok
          (some (deepLTranslate (fun _ => .error errmsg))) replace savePath
          cards ts0).cards)) := by
  have hfail := deepLTranslate_fail errmsg card
  refine ⟨?_, ?_, ?_, ?_, ?_⟩
  · simp only [enrichCard, Option.isSome_some, hfail, truthyS]
    split_ifs <;> first | rfl | simp_all
  · simp only [enrichCard, Option.isSome_some, hfail, truthyS]
    split_ifs <;> first | rfl | simp_all
  · intro hs hcond
    simp only [enrichCard, Option.isSome_some, hfail]
    rw [if_pos (by simp only [Bool.true_and]; exact hcond)]
    simp [truthyS, hs]
  · intro f r v hp hv
    exact enrichCard_of_hint _ _ _ _ _ _ _ v hp hv
  · intro cards ts0 savePath
    exact ⟨enrichAll_length _ _ _ _ _ cards ts0, rfl⟩

/-- C2 witness: a card with no hints and an always-failing service keeps
its literal fallback (empty, since the tokenizer returns no tokens) and
logs exactly one warning naming the card. -/
theorem c2_failure_resilience_witness :
    (enrichCard (fun _ => none) (fun _ => none) (fun _ => [])
        (some (deepLTranslate (fun _ => .error "boom".data))) true
        emptyTranslationState
        { id := 3, subtitleId := some 9, sentence := some "abc".data,
          translation := none, romaji := none, furigana := none,
          startTime := none, endTime := none, startMs := none, endMs := none,
          tokens := none, extra := [] }).2.2 =
      [deepLWarn
        { id := 3, subtitleId := some 9, sentence := some "abc".data,
          translation := none, romaji := none, furigana := none,
          startTime := none, endTime := none, startMs := none, endMs := none,
          tokens := none, extra := [] } ("boom".data)] :=
  (c2_failure_resilience (fun _ => none) (fun _ => none) (fun _ => []) true
      emptyTranslationState _ ("boom".data)).2.2.1 (by decide) (by decide)

/-! ## Association-list model of JS Map -/


theorem alookup_cons {α : Type} (x : List Char) (y : α) (rest : List (List Char × α)) (q : List Char) :
    alookup ((x, y) :: rest) q = if x = q then some y else alookup rest q := rfl

theorem alookup_map_set {α : Type} (m : List (List Char × α)) (k q : List Char) (v : α) :
    alookup (m.map (fun p => if p.1 = k then (k, v) else p)) q =
      if q = k then (alookup m k).map (fun _ => v) else alookup m q := by
  induction m with
  | nil => simp only [List.map_nil, alookup]; split_ifs <;> rfl
  | cons p m' ih =>
    obtain ⟨a, b⟩ := p
    simp only [List.map_cons]
    by_cases hak : a = k
    · subst hak
      rw [if_pos rfl]
      by_cases hqa : q = a
      · subst hqa
        simp [alookup_cons]
      · rw [alookup_cons, if_neg (fun h : a = q => hqa h.symm), ih,
          if_neg hqa, if_neg hqa, alookup_cons,
          if_neg (fun h : a = q => hqa h.symm)]
    · rw [if_neg hak, alookup_cons]
      by_cases haq : a = q
      · subst haq
        rw [if_pos rfl, if_neg hak, alookup_cons, if_pos rfl]
      · rw [if_neg haq, ih]
        simp only [alookup_cons]
        rw [if_neg hak, if_neg haq]

theorem alookup_append_single {α : Type} (m : List (List Char × α)) (k q : List Char) (v : α) :
    alookup (m ++ [(k, v)]) q =
      match alookup m q with
      | some w => some w
      | none => if k = q then some v else none := by
  induction m with
  | nil => simp [alookup]
  | cons p m' ih =>
    obtain ⟨a, b⟩ := p
    rw [List.cons_append, alookup_cons, alookup_cons]
    by_cases haq : a = q
    · rw [if_pos haq, if_pos haq]
    · rw [if_neg haq, if_neg haq, ih]

theorem alookup_mapSet {α : Type} (m : List (List Char × α)) (k q : List Char) (v : α) :
    alookup (mapSet m k v) q = if q = k then some v else alookup m q := by
  unfold mapSet
  by_cases hm : (alookup m k).isSome
  · rw [if_pos hm, alookup_map_set]
    obtain ⟨w, hw⟩ := Option.isSome_iff_exists.mp hm
    rw [hw]
    split_ifs <;> rfl
  · rw [if_neg hm, alookup_append_single]
    have hnone : alookup m k = none := Option.not_isSome_iff_eq_none.mp hm
    by_cases hqk : q = k
    · subst hqk
      rw [hnone]
    · cases hq : alookup m q with
      | some w => simp [hq, hqk]
      | none =>
        simp [hq, hqk]
        exact fun h => hqk h.symm

/-! ## C10: hint-key normalization -/

theorem registerEntry_byId (st : TranslationState) (e : RawEntry) (se : TranslationEntry)
    (h : sanitizeTranslationEntry e = some se) :
    (registerEntry st e).byId =
      match se.id with
      | some idv => mapSet st.byId (jsToString idv) se.translation
      | none => st.byId := by
  obtain ⟨sid, ssub, ssent, str⟩ := se
  unfold registerEntry
  rw [h]
  cases sid <;> cases ssub <;> cases ssent <;> simp <;> (try split_ifs) <;> simp

/-- C10 counterexample: an entry whose `id` is the JSON number `5.9` has
`parseInt(String(5.9)) = 5`, a finite number, yet it is indexed under
`"5.9"` (its own decimal string), not under `"5"` — `normalizeNumeric`
returns finite numbers unchanged without parsing them. -/
theorem c10_counterexample :
    (alookup (loadTranslationHints
        [{ id := JsVal.vNum 5 ['9'], subtitleId := JsVal.vNull,
           sentence := JsVal.vNull,
           translation := JsVal.vStr "x".data }]).byId ("5".data) = none) ∧
    (alookup (loadTranslationHints
        [{ id := JsVal.vNum 5 ['9'], subtitleId := JsVal.vNull,
           sentence := JsVal.vNull,
           translation := JsVal.vStr "x".data }]).byId ("5.9".data) =
      some ("x".data)) ∧
    (parseIntJS (jsToString (JsVal.vNum 5 ['9'])) = some 5) := by
  exact ⟨by decide, by decide, by decide⟩

theorem sanitize_id_nonnull (e : RawEntry) (t : List Char)
    (hid1 : e.id ≠ .vNull) (hid2 : e.id ≠ .vStr [])
    (htr : e.translation = .vStr t) (htrim : trimJS t ≠ []) :
    ∃ se, sanitizeTranslationEntry e = some se ∧
      se.id = some (normalizeNumeric e.id) ∧ se.translation = trimJS t := by
  unfold sanitizeTranslationEntry
  rw [htr]
  simp only [if_neg htrim]
  refine ⟨_, rfl, ?_, rfl⟩
  simp only []
  rw [if_neg ?_]
  rintro (h1 | h2)
  · exact hid1 h1
  · exact hid2 h2

/-- C10 (amended): when hint entries are loaded, a STRING id value whose
`parseInt` is an integer `n` is indexed under `n`'s decimal string (so the
string keys "05", "5.9", "5abc" all index under "5"); a string whose parse
is `NaN` is indexed under its original form; but a finite NUMBER value is
kept as-is and indexed under its own decimal string (so the number `5.9`
indexes under "5.9", not "5"); and entries with a missing or
whitespace-only translation are dropped entirely. -/
theorem c10_hint_normalization (st : TranslationState) (e : RawEntry) :
    (∀ s n t, e.id = .vStr s → parseIntJS s = some n → e.translation = .vStr t →
      trimJS t ≠ [] →
      alookup (registerEntry st e).byId (intStr n) = some (trimJS t)) ∧
    (∀ s t, e.id = .vStr s → s ≠ [] → parseIntJS s = none → e.translation = .vStr t →
      trimJS t ≠ [] →
      alookup (registerEntry st e).byId s = some (trimJS t)) ∧
    (∀ ip frac t, e.id = .vNum ip frac → e.translation = .vStr t → trimJS t ≠ [] →
      alookup (registerEntry st e).byId (jsToString (JsVal.vNum ip frac)) =
        some (trimJS t)) ∧
    ((e.translation = .vNull ∨ (∃ t, e.translation = .vStr t ∧ trimJS t = [])) →
      registerEntry st e = st) := by
  refine ⟨?_, ?_, ?_, ?_⟩
  · intro s n t hid hparse htr htrim
    have hs : s ≠ [] := by
      intro h
      subst h
      simp [parseIntJS, parseDigits] at hparse
    obtain ⟨se, hsan, hid', htr'⟩ :=
      sanitize_id_nonnull e t (by rw [hid]; exact fun h => JsVal.noConfusion h)
        (by rw [hid]; intro h; exact hs (by injection h)) htr htrim
    rw [registerEntry_byId st e se hsan, hid']
    have hnorm : normalizeNumeric (.vStr s) = .vNum n [] := by
      simp [normalizeNumeric, jsToString, hparse]
    rw [hid, hnorm, htr']
    show alookup (mapSet st.byId (jsToString (JsVal.vNum n [])) (trimJS t))
      (intStr n) = some (trimJS t)
    rw [show jsToString (JsVal.vNum n []) = intStr n from by simp [jsToString],
      alookup_mapSet, if_pos rfl]
  · intro s t hid hs hparse htr htrim
    obtain ⟨se, hsan, hid', htr'⟩ :=
      sanitize_id_nonnull e t (by rw [hid]; exact fun h => JsVal.noConfusion h)
        (by rw [hid]; intro h; exact hs (by injection h)) htr htrim
    rw [registerEntry_byId st e se hsan, hid']
    have hnorm : normalizeNumeric (.vStr s) = .vStr s := by
      simp [normalizeNumeric, jsToString, hparse]
    rw [hid, hnorm, htr']
    show alookup (mapSet st.byId (jsToString (JsVal.vStr s)) (trimJS t)) s =
      some (trimJS t)
    rw [show jsToString (JsVal.vStr s) = s from rfl, alookup_mapSet, if_pos rfl]
  · intro ip frac t hid htr htrim
    obtain ⟨se, hsan, hid', htr'⟩ :=
      sanitize_id_nonnull e t (by rw [hid]; exact fun h => JsVal.noConfusion h)
        (by rw [hid]; exact fun h => JsVal.noConfusion h) htr htrim
    rw [registerEntry_byId st e se hsan, hid']
    have hnorm : normalizeNumeric (.vNum ip frac) = .vNum ip frac := rfl
    rw [hid, hnorm, htr']
    show alookup (mapSet st.byId (jsToString (JsVal.vNum ip frac)) (trimJS t))
      (jsToString (JsVal.vNum ip frac)) = some (trimJS t)
    rw [alookup_mapSet, if_pos rfl]
  · rintro (h | ⟨t, ht, htr0⟩)
    · have hnone : sanitizeTranslationEntry e = none := by
        unfold sanitizeTranslationEntry
        rw [h]
      rw [registerEntry, hnone]
    · have hnone : sanitizeTranslationEntry e = none := by
        unfold sanitizeTranslationEntry
        rw [ht]
        simp [htr0]
      rw [registerEntry, hnone]

/-- C10 witness: the string key `"05"` ends up indexed under `"5"`. -/
theorem c10_hint_normalization_witness :
    alookup (registerEntry emptyTranslationState
      { id := JsVal.vStr "05".data, subtitleId := JsVal.vNull,
        sentence := JsVal.vNull,
        translation := JsVal.vStr "Hello there".data }).byId (intStr 5) =
      some (trimJS ("Hello there".data)) :=
  (c10_hint_normalization emptyTranslationState _).1 ("05".data) 5
    ("Hello there".data) rfl (by decide) rfl (by decide)


/-! ## C3: merging the translation cache -/

/-- The anonymous fallback key `put` generates for an entry lacking all
three identifying fields. -/
def anonKey (i : Nat) : List Char := "anon:".data ++ natStr i

/-- The composite key of an entry as the spec describes it — `subtitleId`
if present, else `id`, else a truthy `sentence` — and `none` for entries
that fall to the unique anonymous fallback.  `entryKey` is proved to agree
with this in the C3 theorem. -/
def realKey (e : TranslationEntry) : Option (List Char) :=
  match e.subtitleId with
  | some v => some ("subtitleId:".data ++ jsToString v)
  | none =>
    match e.id with
    | some v => some ("id:".data ++ jsToString v)
    | none =>
      match e.sentence with
      | some s => if s = [] then none else some ("sentence:".data ++ s)
      | none => none

theorem anonKey_inj (i j : Nat) (h : anonKey i = anonKey j) : i = j := by
  apply natStr_injective
  have := List.append_cancel_left h
  exact this

theorem realKey_head (x : TranslationEntry) (k : List Char)
    (h : realKey x = some k) : k.head? = some 's' ∨ k.head? = some 'i' := by
  unfold realKey at h
  obtain ⟨xid, xsub, xsent, xtr⟩ := x
  cases xsub with
  | some v => left; cases h; rfl
  | none =>
    cases xid with
    | some v => right; cases h; rfl
    | none =>
      cases xsent with
      | some s =>
        simp only at h
        by_cases hs : s = []
        · rw [if_pos hs] at h
          cases h
        · rw [if_neg hs] at h
          cases h
          left
          rfl
      | none => cases h

theorem realKey_ne_anonKey (x : TranslationEntry) (k : List Char) (i : Nat)
    (h : realKey x = some k) : k ≠ anonKey i := by
  intro he
  have ha : (anonKey i).head? = some 'a' := rfl
  rcases realKey_head x k h with hh | hh <;>
    (rw [he, ha] at hh; exact absurd hh (by decide))

theorem head_ne_anonKey (k : List Char) (hk : k.head? ≠ some 'a') (i : Nat) :
    k ≠ anonKey i := by
  intro he
  exact hk (by rw [he]; rfl)

theorem entryKey_realKey (ctr : Nat) (e : TranslationEntry) :
    entryKey ctr e =
      match realKey e with
      | some k => (k, ctr)
      | none => (anonKey ctr, ctr + 1) := by
  obtain ⟨xid, xsub, xsent, xtr⟩ := e
  unfold entryKey realKey anonKey
  cases xsub with
  | some v => rfl
  | none =>
    cases xid with
    | some v => rfl
    | none =>
      cases xsent with
      | some s =>
        simp only []
        split_ifs <;> rfl
      | none => rfl

theorem alookup_none_iff {α : Type} (m : List (List Char × α)) (k : List Char) :
    alookup m k = none ↔ k ∉ m.map Prod.fst := by
  induction m with
  | nil => simp [alookup]
  | cons p m' ih =>
    obtain ⟨a, b⟩ := p
    rw [alookup_cons, List.map_cons]
    by_cases hak : a = k
    · subst hak
      rw [if_pos rfl]
      constructor
      · intro h
        exact Option.noConfusion h
      · intro h
        exact absurd (List.Mem.head _) h
    · rw [if_neg hak, ih]
      constructor
      · intro h hmem
        rcases List.mem_cons.mp hmem with he | hm
        · exact hak he.symm
        · exact h hm
      · intro h hm
        exact h (List.mem_cons_of_mem _ hm)

theorem alookup_some_mem {α : Type} (m : List (List Char × α)) (k : List Char)
    (x : α) (h : alookup m k = some x) : (k, x) ∈ m := by
  induction m with
  | nil => simp [alookup] at h
  | cons p m' ih =>
    obtain ⟨a, b⟩ := p
    rw [alookup_cons] at h
    by_cases hak : a = k
    · subst hak
      rw [if_pos rfl] at h
      cases h
      exact List.Mem.head _
    · rw [if_neg hak] at h
      exact List.Mem.tail _ (ih h)

theorem mem_alookup {α : Type} (m : List (List Char × α)) (k : List Char)
    (x : α) (hnd : (m.map Prod.fst).Nodup) (hm : (k, x) ∈ m) :
    alookup m k = some x := by
  induction m with
  | nil => simp at hm
  | cons p m' ih =>
    obtain ⟨a, b⟩ := p
    simp only [List.map_cons, List.nodup_cons] at hnd
    rw [alookup_cons]
    rcases List.mem_cons.mp hm with h | h
    · cases h
      rw [if_pos rfl]
    · by_cases hak : a = k
      · subst hak
        exact absurd (List.mem_map_of_mem Prod.fst h) hnd.1
      · rw [if_neg hak]
        exact ih hnd.2 h

theorem mapSet_keys_of_mem {α : Type} (m : List (List Char × α)) (k : List Char)
    (v : α) (h : (alookup m k).isSome) :
    (mapSet m k v).map Prod.fst = m.map Prod.fst := by
  unfold mapSet
  rw [if_pos h, List.map_map]
  apply List.map_congr_left
  intro p _
  by_cases hp : p.1 = k
  · simp [hp]
  · simp [hp]

theorem mapSet_nodup {α : Type} (m : List (List Char × α)) (k : List Char)
    (v : α) (hnd : (m.map Prod.fst).Nodup) :
    ((mapSet m k v).map Prod.fst).Nodup := by
  by_cases h : (alookup m k).isSome
  · rw [mapSet_keys_of_mem m k v h]
    exact hnd
  · unfold mapSet
    rw [if_neg h]
    have hk : k ∉ m.map Prod.fst := by
      rw [← alookup_none_iff]
      exact Option.not_isSome_iff_eq_none.mp h
    simp [List.nodup_append, hnd, hk]

def MergeInv (m : List (List Char × TranslationEntry)) (ctr : Nat) : Prop :=
  ((m.map Prod.fst).Nodup) ∧
  (∀ p ∈ m,
    match realKey p.2 with
    | some k' => p.1 = k'
    | none => ∃ i, i < ctr ∧ p.1 = anonKey i)

theorem mergeInv_nil : MergeInv [] 0 := by
  constructor
  · simp
  · intro p hp
    simp at hp

theorem mergeInv_step (m : List (List Char × TranslationEntry)) (ctr : Nat)
    (e : TranslationEntry) (h : MergeInv m ctr) :
    MergeInv (mapSet m (entryKey ctr e).1 e) (entryKey ctr e).2 := by
  obtain ⟨hnd, hinv⟩ := h
  rw [entryKey_realKey]
  cases hre : realKey e with
  | some k =>
    constructor
    · exact mapSet_nodup m k e hnd
    · intro p hp
      unfold mapSet at hp
      split_ifs at hp with hs
      · rcases List.mem_map.mp hp with ⟨q, hq, hpq⟩
        by_cases hqk : q.1 = k
        · rw [if_pos hqk] at hpq
          subst hpq
          simp [hre]
        · rw [if_neg hqk] at hpq
          subst hpq
          exact hinv q hq
      · rcases List.mem_append.mp hp with hm | hm
        · exact hinv p hm
        · rcases List.mem_singleton.mp hm with rfl
          simp [hre]
  | none =>
    have hfresh : alookup m (anonKey ctr) = none := by
      rw [alookup_none_iff]
      intro hmem
      rcases List.mem_map.mp hmem with ⟨q, hq, hpq⟩
      have := hinv q hq
      cases hq2 : realKey q.2 with
      | some k' =>
        rw [hq2] at this
        simp only at this
        exact realKey_ne_anonKey q.2 k' ctr hq2 (by rw [← this]; exact hpq)
      | none =>
        rw [hq2] at this
        obtain ⟨i, hi, hqi⟩ := this
        rw [hqi] at hpq
        exact absurd (anonKey_inj i ctr hpq) (by omega)
    constructor
    · unfold mapSet
      rw [if_neg (by rw [hfresh]; simp)]
      have hk : anonKey ctr ∉ m.map Prod.fst := (alookup_none_iff m _).mp hfresh
      simp [List.nodup_append, hnd, hk]
    · intro p hp
      unfold mapSet at hp
      rw [if_neg (by rw [hfresh]; simp)] at hp
      rcases List.mem_append.mp hp with hm | hm
      · have := hinv p hm
        cases hq2 : realKey p.2 with
        | some k' => rw [hq2] at this; simp [hq2, this]
        | none =>
          rw [hq2] at this
          obtain ⟨i, hi, hqi⟩ := this
          simp only [hq2]
          exact ⟨i, by omega, hqi⟩
      · rcases List.mem_singleton.mp hm with rfl
        simp only [hre]
        exact ⟨ctr, by omega, rfl⟩

def isAnonE (x : TranslationEntry) : Bool := (realKey x).isNone

theorem mergeAux_cons (e : TranslationEntry) (es : List TranslationEntry)
    (m : List (List Char × TranslationEntry)) (ctr : Nat) :
    mergeAux (e :: es) m ctr =
      mergeAux es (mapSet m (entryKey ctr e).1 e) (entryKey ctr e).2 := rfl

theorem getLast?_cons_ne {α : Type} (y : α) (ys : List α) :
    (y :: ys).getLast? ≠ none := by
  induction ys generalizing y with
  | nil => simp
  | cons z zs ih =>
    rw [List.getLast?_cons_cons]
    exact ih z

theorem mergeAux_alookup (es : List TranslationEntry) :
    ∀ (m : List (List Char × TranslationEntry)) (ctr : Nat) (k : List Char),
      k.head? ≠ some 'a' →
      alookup (mergeAux es m ctr) k =
        match (es.filter (fun x => realKey x = some k)).getLast? with
        | some x => some x
        | none => alookup m k := by
  induction es with
  | nil => intro m ctr k hk; simp [mergeAux]
  | cons e es ih =>
    intro m ctr k hk
    rw [mergeAux_cons, ih _ _ k hk, entryKey_realKey]
    cases hre : realKey e with
    | some k' =>
      simp only []
      rw [List.filter_cons]
      by_cases hek : k' = k
      · subst hek
        rw [if_pos (by simp [hre])]
        cases hfes : es.filter (fun x => realKey x = some k') with
        | nil =>
          show alookup (mapSet m k' e) k' = some e
          rw [alookup_mapSet, if_pos rfl]
        | cons y ys =>
          obtain ⟨z, hz⟩ := Option.ne_none_iff_exists'.mp (getLast?_cons_ne y ys)
          rw [List.getLast?_cons_cons, hz]
      · rw [if_neg (by simp [hre, hek])]
        cases hfes : es.filter (fun x => realKey x = some k) with
        | nil =>
          show alookup (mapSet m k' e) k = alookup m k
          rw [alookup_mapSet, if_neg (fun h => hek h.symm)]
        | cons y ys =>
          obtain ⟨z, hz⟩ := Option.ne_none_iff_exists'.mp (getLast?_cons_ne y ys)
          rw [hz]
    | none =>
      simp only []
      rw [List.filter_cons, if_neg (by simp [hre])]
      cases hfes : es.filter (fun x => realKey x = some k) with
      | nil =>
        show alookup (mapSet m (anonKey ctr) e) k = alookup m k
        rw [alookup_mapSet, if_neg (head_ne_anonKey k hk ctr)]
      | cons y ys =>
        obtain ⟨z, hz⟩ := Option.ne_none_iff_exists'.mp (getLast?_cons_ne y ys)
        rw [hz]

theorem filter_map_snd_replace (m : List (List Char × TranslationEntry))
    (k : List Char) (e : TranslationEntry)
    (hall : ∀ p ∈ m, p.1 = k → isAnonE p.2 = false) (he : isAnonE e = false) :
    ((m.map (fun p => if p.1 = k then (k, e) else p)).map Prod.snd).filter isAnonE =
      (m.map Prod.snd).filter isAnonE := by
  induction m with
  | nil => rfl
  | cons q m' ih =>
    simp only [List.map_cons, List.filter_cons]
    by_cases hq : q.1 = k
    · rw [if_pos hq]
      simp only [hall q (List.Mem.head _) hq, he]
      exact ih (fun p hp hpk => hall p (List.Mem.tail _ hp) hpk)
    · rw [if_neg hq]
      rw [ih (fun p hp hpk => hall p (List.Mem.tail _ hp) hpk)]

theorem mapSet_values_append (m : List (List Char × TranslationEntry))
    (k : List Char) (v : TranslationEntry) (h : alookup m k = none) :
    (mapSet m k v).map Prod.snd = m.map Prod.snd ++ [v] := by
  unfold mapSet
  rw [if_neg (by rw [h]; simp)]
  simp

theorem mergeAux_values_anon (es : List TranslationEntry) :
    ∀ (m : List (List Char × TranslationEntry)) (ctr : Nat), MergeInv m ctr →
      ((mergeAux es m ctr).map Prod.snd).filter isAnonE =
        ((m.map Prod.snd).filter isAnonE) ++ es.filter isAnonE := by
  induction es with
  | nil => intro m ctr _; simp [mergeAux]
  | cons e es ih =>
    intro m ctr hInv
    rw [mergeAux_cons, ih _ _ (mergeInv_step m ctr e hInv), entryKey_realKey]
    cases hre : realKey e with
    | some k =>
      simp only []
      rw [List.filter_cons, if_neg (by simp [isAnonE, hre])]
      have hrepl :
          ((mapSet m k e).map Prod.snd).filter isAnonE =
            (m.map Prod.snd).filter isAnonE := by
        unfold mapSet
        split_ifs with hs
        · refine filter_map_snd_replace m k e ?_ (by simp [isAnonE, hre])
          intro p hp hpk
          have hi := hInv.2 p hp
          cases hq2 : realKey p.2 with
          | some k'' => simp [isAnonE, hq2]
          | none =>
            rw [hq2] at hi
            obtain ⟨i, hi2, hqi⟩ := hi
            exfalso
            exact realKey_ne_anonKey e k i hre (by rw [← hpk, hqi])
        · rw [List.map_append, List.filter_append]
          simp [isAnonE, hre]
      rw [hrepl]
    | none =>
      simp only []
      rw [List.filter_cons, if_pos (by simp [isAnonE, hre])]
      have hfresh : alookup m (anonKey ctr) = none := by
        rw [alookup_none_iff]
        intro hmem
        rcases List.mem_map.mp hmem with ⟨q, hq, hpq⟩
        have hi := hInv.2 q hq
        cases hq2 : realKey q.2 with
        | some k' =>
          rw [hq2] at hi
          simp only at hi
          exact realKey_ne_anonKey q.2 k' ctr hq2 (by rw [← hi]; exact hpq)
        | none =>
          rw [hq2] at hi
          obtain ⟨i, hi2, hqi⟩ := hi
          rw [hqi] at hpq
          exact absurd (anonKey_inj i ctr hpq) (by omega)
      rw [mapSet_values_append m _ e hfresh, List.filter_append]
      simp only [List.filter_cons, isAnonE, hre, Option.isNone_none, if_true]
      simp [List.append_assoc]

theorem mergeAux_inv (es : List TranslationEntry) :
    ∀ (m : List (List Char × TranslationEntry)) (ctr : Nat), MergeInv m ctr →
      ∃ ctr2, MergeInv (mergeAux es m ctr) ctr2 := by
  induction es with
  | nil => intro m ctr h; exact ⟨ctr, h⟩
  | cons e es ih =>
    intro m ctr h
    rw [mergeAux_cons]
    exact ih _ _ (mergeInv_step m ctr e h)

/-- C3: the persisted merge keys every entry by the precedence
`subtitleId`, else `id`, else truthy `sentence`, else a unique anonymous
fallback (`entryKey` agrees with `realKey`); entries lacking all three
never collide (the anonymous entries of the merge are exactly those of the
input, in order); for every key the surviving entry is the LAST entry of
`existing ++ additions` with that key (later additions overwrite earlier
entries); every occurring key is represented; and the merge holds at most
one entry per key. -/
theorem c3_merge_dedup (existing additions : List TranslationEntry) :
    (∀ (ctr : Nat) (e : TranslationEntry), entryKey ctr e =
      match realKey e with
      | some k => (k, ctr)
      | none => (anonKey ctr, ctr + 1)) ∧
    ((mergeTranslationEntries existing additions).filter isAnonE =
      (existing ++ additions).filter isAnonE) ∧
    (∀ e ∈ mergeTranslationEntries existing additions, ∀ k, realKey e = some k →
      ((existing ++ additions).filter (fun x => realKey x = some k)).getLast? =
        some e) ∧
    (∀ (k : List Char) (y : TranslationEntry), y ∈ existing ++ additions →
      realKey y = some k →
      ∃ e ∈ mergeTranslationEntries existing additions, realKey e = some k) ∧
    (∀ (k : List Char) (e1 e2 : TranslationEntry),
      e1 ∈ mergeTranslationEntries existing additions →
      e2 ∈ mergeTranslationEntries existing additions →
      realKey e1 = some k → realKey e2 = some k → e1 = e2) := by
  obtain ⟨ctr2, hInv2⟩ := mergeAux_inv (existing ++ additions) [] 0 mergeInv_nil
  have hmdef : mergeTranslationEntries existing additions =
      (mergeAux (existing ++ additions) [] 0).map Prod.snd := rfl
  refine ⟨entryKey_realKey, ?_, ?_, ?_, ?_⟩
  · rw [hmdef, mergeAux_values_anon (existing ++ additions) [] 0 mergeInv_nil]
    rfl
  · intro e he k hre
    rw [hmdef] at he
    obtain ⟨p, hp, hpe⟩ := List.mem_map.mp he
    have hpk : p.1 = k := by
      have hi := hInv2.2 p hp
      rw [hpe, hre] at hi
      exact hi
    have hmem : (k, e) ∈ mergeAux (existing ++ additions) [] 0 := by
      have h2 : (p.1, p.2) ∈ mergeAux (existing ++ additions) [] 0 := by
        simpa using hp
      rw [hpk, hpe] at h2
      exact h2
    have hl := mem_alookup _ k e hInv2.1 hmem
    have hk : k.head? ≠ some 'a' := by
      rcases realKey_head e k hre with h | h <;> (rw [h]; decide)
    have halk := mergeAux_alookup (existing ++ additions) [] 0 k hk
    rw [hl] at halk
    cases hfl : ((existing ++ additions).filter
        (fun x => realKey x = some k)).getLast? with
    | none =>
      rw [hfl] at halk
      exact absurd halk (by simp [alookup])
    | some x =>
      rw [hfl] at halk
      cases halk
      rfl
  · intro k y hy hky
    have hk : k.head? ≠ some 'a' := by
      rcases realKey_head y k hky with h | h <;> (rw [h]; decide)
    have halk := mergeAux_alookup (existing ++ additions) [] 0 k hk
    have hne : (existing ++ additions).filter (fun x => realKey x = some k) ≠ [] :=
      List.ne_nil_of_mem (List.mem_filter.mpr ⟨hy, by simp [hky]⟩)
    cases hfl : (existing ++ additions).filter (fun x => realKey x = some k) with
    | nil => exact absurd hfl hne
    | cons y0 ys0 =>
      obtain ⟨z, hz⟩ := Option.ne_none_iff_exists'.mp (getLast?_cons_ne y0 ys0)
      rw [hfl, hz] at halk
      have hmem := alookup_some_mem _ k z halk
      refine ⟨z, ?_, ?_⟩
      · rw [hmdef]
        exact List.mem_map_of_mem Prod.snd hmem
      · have hi := hInv2.2 (k, z) hmem
        cases hq2 : realKey z with
        | some k' =>
          rw [hq2] at hi
          simp only at hi
          exact congrArg some hi.symm
        | none =>
          rw [hq2] at hi
          obtain ⟨i, hi2, hqi⟩ := hi
          simp only at hqi
          exact absurd hqi (head_ne_anonKey k hk i)
  · intro k e1 e2 h1 h2 hk1 hk2
    rw [hmdef] at h1 h2
    obtain ⟨p1, hp1, hpe1⟩ := List.mem_map.mp h1
    obtain ⟨p2, hp2, hpe2⟩ := List.mem_map.mp h2
    have hpk1 : p1.1 = k := by
      have hi := hInv2.2 p1 hp1
      rw [hpe1, hk1] at hi
      exact hi
    have hpk2 : p2.1 = k := by
      have hi := hInv2.2 p2 hp2
      rw [hpe2, hk2] at hi
      exact hi
    have hm1 : (k, e1) ∈ mergeAux (existing ++ additions) [] 0 := by
      have h2' : (p1.1, p1.2) ∈ mergeAux (existing ++ additions) [] 0 := by
        simpa using hp1
      rw [hpk1, hpe1] at h2'
      exact h2'
    have hm2 : (k, e2) ∈ mergeAux (existing ++ additions) [] 0 := by
      have h2' : (p2.1, p2.2) ∈ mergeAux (existing ++ additions) [] 0 := by
        simpa using hp2
      rw [hpk2, hpe2] at h2'
      exact h2'
    have hl1 := mem_alookup _ k e1 hInv2.1 hm1
    have hl2 := mem_alookup _ k e2 hInv2.1 hm2
    rw [hl1] at hl2
    cases hl2
    rfl

/-- C3 witness: with one initial and one added entry sharing the
`subtitleId` key `1`, the surviving entry is the later one. -/
theorem c3_merge_dedup_witness :
    (([({ id := none, subtitleId := some (JsVal.vNum 1 []), sentence := none,
          translation := "a".data } : TranslationEntry)] ++
      [({ id := none, subtitleId := some (JsVal.vNum 1 []), sentence := none,
          translation := "b".data } : TranslationEntry)]).filter
        (fun x => realKey x = some ("subtitleId:1".data))).getLast? =
      some { id := none, subtitleId := some (JsVal.vNum 1 []),
             sentence := none, translation := "b".data } :=
  (c3_merge_dedup
      [{ id := none, subtitleId := some (JsVal.vNum 1 []), sentence := none,
         translation := "a".data }]
      [{ id := none, subtitleId := some (JsVal.vNum 1 []), sentence := none,
         translation := "b".data }]).2.2.1
    { id := none, subtitleId := some (JsVal.vNum 1 []), sentence := none,
      translation := "b".data } (by decide) ("subtitleId:1".data) (by decide)

end Subs
